import Mathlib

/-!
Verification of the batch processing engine of the Excel-AI repository
(`src/llm_processor.py`, `src/app.py`).

Modelling conventions of the shallow embedding:
* a pandas dataframe is a column-wise table; a cell is `Option String`,
  where `none` models a null/NaN cell and `some s` a scalar whose Python
  `str` coercion is `s`;
* an LLM chain invocation is a function `RowInput → Except String String`
  (exceptions are modelled by `Except.error`);
* the progress callback is modelled by the trace of its invocations, a
  `List Progress` returned next to the outputs;
* Python mutation is absent: every operation returns a new value, so the
  source's `df.copy()` discipline (never mutate the caller's dataframe)
  holds by construction and the interesting content is the column-wise
  characterisation of the results.
-/

/-- A cell of a dataframe: `none` models a null/NaN cell, `some s` a
scalar whose Python `str` coercion is `s`. -/
abbrev Cell := Option String

/-- A Row Input (`input_dict` built by `prepare_inputs`): an association
list from variable name to substituted string value. -/
abbrev RowInput := List (String × String)

/-- A pandas dataframe, modelled column-wise: an ordered list of
(column name, cells) pairs; in a well-formed frame all columns have the
same length and distinct names. -/
structure DataFrame where
  cols : List (String × List Cell)
deriving Repr, DecidableEq

/-- Column names of the frame (`df.columns`). -/
def DataFrame.columns (df : DataFrame) : List String := df.cols.map Prod.fst

/-- Number of rows of the frame (`len(df)`): length of the first column. -/
def DataFrame.nrows (df : DataFrame) : Nat :=
  match df.cols with
  | [] => 0
  | c :: _ => c.2.length

/-- The cells of a named column, if present (`df[name]`). -/
def DataFrame.getCol (df : DataFrame) (name : String) : Option (List Cell) :=
  df.cols.lookup name

/-- Cell of row `i` in column `c` (`row[var]` inside `df.iterrows()`). -/
def DataFrame.cell (df : DataFrame) (i : Nat) (c : String) : Cell :=
  ((df.cols.lookup c).bind fun col => col[i]?).getD none

/-- String coercion of a cell, `str(row[var]) if pd.notna(row[var]) else ("")`
(`src/llm_processor.py:75`). -/
def strCell : Cell → String
  | some s => s
  | none => ""

/-- A regex word character, `\w` in `re.findall(r'\{(\w+)\}', ...)`
(ASCII range): letter, digit or underscore. -/
def isWordChar (c : Char) : Bool := c.isAlphanum || c = '_'

/-- Attempt to match `(\w+)\}` right after an opening brace: the maximal
run of word characters, which must be nonempty and followed by a closing
brace.  Returns the identifier and the remainder after the closing brace. -/
def matchVar (rest : List Char) : Option (List Char × List Char) :=
  match rest.dropWhile isWordChar with
  | [] => none
  | x :: rest2 =>
    if x = '}' then
      if rest.takeWhile isWordChar = [] then none
      else some (rest.takeWhile isWordChar, rest2)
    else none

/-- Fuelled scan implementing `re.findall(r'\{(\w+)\}', s)`: at each
opening brace try `matchVar`; on success record the identifier and resume
after the match (matches are non-overlapping), otherwise resume at the
next character.  The fuel is only a structural-termination device; it is
adequate whenever it bounds the length of the text. -/
def findVarsAux : Nat → List Char → List String
  | 0, _ => []
  | _ + 1, [] => []
  | fuel + 1, c :: rest =>
    if c = '{' then
      match matchVar rest with
      | some (w, rest2) => w.asString :: findVarsAux fuel rest2
      | none => findVarsAux fuel rest
    else findVarsAux fuel rest

/-- Placeholder identifiers of one prompt string,
`re.findall(r'\{(\w+)\}', s)` (`src/llm_processor.py:66-67`,
`src/app.py:137-138`). -/
def findVars (s : String) : List String := findVarsAux s.data.length s.data

/-- The job's variable set, `list(set(system_vars + user_vars))`
(`src/llm_processor.py:68`, `src/app.py:139`).  Python's set iteration
order is unspecified; it is determinised here by `List.dedup`. -/
def all_variables (system_prompt user_prompt_template : String) : List String :=
  (findVars system_prompt ++ findVars user_prompt_template).dedup

/-- Embedding of `LLMProcessor.prepare_inputs` (`src/llm_processor.py:61-80`):
one Row Input per dataframe row, in row order; each extracted variable maps
to the string coercion of the row's cell when it names a column (empty
string for null cells) and to the empty string otherwise. -/
def prepare_inputs (df : DataFrame) (system_prompt user_prompt_template : String) :
    List RowInput :=
  (List.range df.nrows).map fun i =>
    (all_variables system_prompt user_prompt_template).map fun v =>
      (v, if v ∈ df.columns then strCell (df.cell i v) else (""))

/-- One invocation of the progress callback,
`progress_callback(current, total, rows_done, total_rows)`. -/
structure Progress where
  current : Nat
  total : Nat
  rowsDone : Nat
  totalRows : Nat
deriving Repr, DecidableEq

/-- The prompt data bound into the chain by `LLMProcessor.create_chain`
(`src/llm_processor.py:47-59`): the composed system message template and
the user message template. -/
structure Chain where
  system : String
  user : String
deriving Repr, DecidableEq

/-- Embedding of `LLMProcessor.create_chain` (`src/llm_processor.py:47-59`):
the system message is `f"{system_prompt}\n\n{formatting_instructions}"`,
the user message is the unmodified user prompt template. -/
def create_chain (system_prompt user_prompt_template formatting_instructions : String) :
    Chain :=
  ⟨system_prompt ++ "\n\n" ++ formatting_instructions, user_prompt_template⟩

/-- The order-preserving many-input contract of `chain.batch` /
`chain.abatch`: invoke the chain on every input of the chunk, in order;
the first exception propagates (langchain's default
`return_exceptions=False`). -/
def invoke_many (chain : RowInput → Except String String) :
    List RowInput → Except String (List String)
  | [] => .ok []
  | x :: xs =>
    match chain x with
    | .error e => .error e
    | .ok y =>
      match invoke_many chain xs with
      | .error e => .error e
      | .ok ys => .ok (y :: ys)

/-- Consecutive chunks of size `bs` (last chunk possibly smaller), the
slices `inputs[i:i+batch_size]` of the loop
`for i in range(0, len(inputs), batch_size)` (`src/llm_processor.py:124-125`). -/
def chunkList (bs : Nat) : List α → List (List α)
  | [] => []
  | x :: xs =>
    if h : bs = 0 then []
    else (x :: xs).take bs :: chunkList bs ((x :: xs).drop bs)
termination_by l => l.length
decreasing_by simp [List.length_drop]; omega

/-- Loop body of `LLMProcessor._batch_process` (`src/llm_processor.py:124-131`):
process one slice of `batch_size` inputs per iteration, extend the output
list, then report `(current_batch, total_batches, len(outputs), len(inputs))`.
The first argument is `batch_size - 1`, so that the step `bsPred + 1` is
positive by construction (Python's `range` rejects a zero step). -/
def batchLoop (chain : RowInput → Except String String)
    (bsPred total_batches total_rows : Nat) :
    List RowInput → Nat → List String → List Progress →
      Except String (List String × List Progress)
  | [], _, outputs, trace => .ok (outputs, trace)
  | x :: xs, k, outputs, trace =>
    match invoke_many chain ((x :: xs).take (bsPred + 1)) with
    | .error e => .error e
    | .ok batch_outputs =>
      batchLoop chain bsPred total_batches total_rows
        ((x :: xs).drop (bsPred + 1)) (k + 1) (outputs ++ batch_outputs)
        (trace ++ [⟨k + 1, total_batches,
                   (outputs ++ batch_outputs).length, total_rows⟩])
termination_by l => l.length
decreasing_by simp [List.length_drop]; omega

/-- Embedding of `LLMProcessor._batch_process` (`src/llm_processor.py:119-133`):
`total_batches = (len(inputs) + batch_size - 1) // batch_size`, then the
chunked loop.  A zero batch size makes Python's `range` raise `ValueError`,
modelled as an `Except.error`. -/
def batch_process (chain : RowInput → Except String String)
    (inputs : List RowInput) (batch_size : Nat) :
    Except String (List String × List Progress) :=
  if batch_size = 0 then .error ("range() arg 3 must not be zero")
  else
    batchLoop chain (batch_size - 1)
      ((inputs.length + batch_size - 1) / batch_size) inputs.length
      inputs 0 [] []

/-- Embedding of `LLMProcessor._async_batch_process`
(`src/llm_processor.py:135-153`): same chunking, invocation and progress
structure as `_batch_process`, with `chain.abatch` awaited per chunk under
`asyncio.run`.  The awaited `abatch` has the same order-preserving
many-input contract as `batch`, and chunks are still processed one after
another, so in this embedding the function coincides with `batch_process`. -/
def async_batch_process (chain : RowInput → Except String String)
    (inputs : List RowInput) (batch_size : Nat) :
    Except String (List String × List Progress) :=
  batch_process chain inputs batch_size

/-- Loop body of `LLMProcessor._sequential_process`
(`src/llm_processor.py:160-165`): invoke the chain on one input, append
the output, then report `(idx, total_rows, idx, total_rows)` where `idx`
is the 1-based position (`enumerate(inputs, 1)`). -/
def seqLoop (chain : RowInput → Except String String) (total_rows : Nat) :
    List RowInput → Nat → List String → List Progress →
      Except String (List String × List Progress)
  | [], _, outputs, trace => .ok (outputs, trace)
  | x :: xs, idx, outputs, trace =>
    match chain x with
    | .error e => .error e
    | .ok out =>
      seqLoop chain total_rows xs (idx + 1) (outputs ++ [out])
        (trace ++ [⟨idx, total_rows, idx, total_rows⟩])

/-- Embedding of `LLMProcessor._sequential_process`
(`src/llm_processor.py:155-167`). -/
def sequential_process (chain : RowInput → Except String String)
    (inputs : List RowInput) : Except String (List String × List Progress) :=
  seqLoop chain inputs.length inputs 1 [] []

/-- The result-assembly step of `process_dataframe`
(`src/llm_processor.py:113-117`): `result_df = df.copy();
result_df[output_column] = outputs`.  Pandas replaces the column in place
(keeping its position) when the name exists and appends a new column at
the end otherwise; it raises on a length mismatch, a case no claim
exercises. -/
def setColumn (df : DataFrame) (name : String) (vals : List Cell) : DataFrame :=
  if name ∈ df.columns then
    ⟨df.cols.map fun p => if p.1 = name then (name, vals) else p⟩
  else ⟨df.cols ++ [(name, vals)]⟩

/-- Embedding of `LLMProcessor.process_dataframe`
(`src/llm_processor.py:82-117`).  The model client behind the chain is
the parameter `llm`: given the bound prompt data and a Row Input it
returns the parsed string output or raises.  Mode dispatch: `"batch"`,
then `"async_batch"`, any other string falls to the sequential branch. -/
def process_dataframe (llm : Chain → RowInput → Except String String)
    (df : DataFrame) (system_prompt user_prompt_template formatting_instructions : String)
    (output_column : String) (mode : String) (batch_size : Nat) :
    Except String (DataFrame × List Progress) :=
  let chain := create_chain system_prompt user_prompt_template formatting_instructions
  let inputs := prepare_inputs df system_prompt user_prompt_template
  match
    (if mode = "batch" then batch_process (llm chain) inputs batch_size
     else if mode = "async_batch" then async_batch_process (llm chain) inputs batch_size
     else sequential_process (llm chain) inputs) with
  | .error e => .error e
  | .ok (outputs, trace) => .ok (setColumn df output_column (outputs.map some), trace)

/-- The offending variable names,
`[v for v in all_variables if v not in available_columns]`
(`src/app.py:145`). -/
def invalid_vars (all_vars available_columns : List String) : List String :=
  all_vars.filter fun v => decide (v ∉ available_columns)

/-- The gating flag of the process button (`src/app.py:171-182`): false
when no variables were found, when some variable names no column, or when
a required API key is missing. -/
def can_process (all_vars available_columns : List String) (api_key_ok : Bool) : Bool :=
  if all_vars.isEmpty then false
  else if !(invalid_vars all_vars available_columns).isEmpty then false
  else if !api_key_ok then false
  else true

/-- The error messages accumulated next to the gating flag
(`src/app.py:172-182`). -/
def error_msg (all_vars available_columns : List String) (api_key_ok : Bool) :
    List String :=
  (if all_vars.isEmpty then [("No variables found in prompts")] else []) ++
  (if (invalid_vars all_vars available_columns).isEmpty then []
   else [("Invalid column names in prompts")]) ++
  (if api_key_ok then [] else [("API key not configured")])

/-- The process-button handler's effect on the committed dataset
(`src/app.py:184-261`): when the gate is open, run `process_dataframe` on
the session dataframe and commit the result to the session state; an
exception leaves the session state untouched (the `except` branch only
reports the error); a closed gate runs nothing. -/
def appStep (gate : Bool) (llm : Chain → RowInput → Except String String)
    (state : DataFrame)
    (system_prompt user_prompt_template formatting_instructions : String)
    (output_column : String) (mode : String) (batch_size : Nat) : DataFrame :=
  if gate then
    match process_dataframe llm state system_prompt user_prompt_template
        formatting_instructions output_column mode batch_size with
    | .ok (newDf, _) => newDf
    | .error _ => state
  else state

/-- The constructed provider-specific model client
(`src/llm_processor.py:25-43`). -/
inductive LLM where
  | ollamaLLM (model : String) (base_url : Option String)
  | chatOpenAI (model : String) (api_key : String)
  | azureChatOpenAI (deployment_name api_key azure_endpoint api_version : String)
deriving Repr, DecidableEq

/-- Modelled from the spec: the local-model-server client (`OllamaLLM`)
requires no credential; a missing base URL falls back to the default
local address, so construction always succeeds (spec section 4.3). -/
def mkOllamaLLM (model : String) (base_url : Option String) : Except String LLM :=
  .ok (.ollamaLLM model base_url)

/-- Modelled from the spec: the hosted-API client (`ChatOpenAI`) requires
an API key; the presence check lives in the external client library, not
under `src/` (spec sections 4.3 and 7). -/
def mkChatOpenAI (model : String) (api_key : Option String) : Except String LLM :=
  match api_key with
  | some k => .ok (.chatOpenAI model k)
  | none => .error ("missing API key")

/-- Modelled from the spec: the enterprise-hosted-API client
(`AzureChatOpenAI`) requires an API key, an endpoint URL and an API
version; the presence checks live in the external client library, not
under `src/` (spec sections 4.3 and 7). -/
def mkAzureChatOpenAI (deployment_name : String)
    (api_key azure_endpoint api_version : Option String) : Except String LLM :=
  match api_key, azure_endpoint, api_version with
  | some k, some e, some v => .ok (.azureChatOpenAI deployment_name k e v)
  | _, _, _ => .error ("missing Azure credential")

/-- Embedding of `LLMProcessor.__init__` (`src/llm_processor.py:10-45`):
dispatch on the provider identifier; an unrecognised identifier raises
`ValueError(f"Unsupported provider: {provider}")`. -/
def LLMProcessor.init (provider model_name : String)
    (api_key base_url api_version : Option String) : Except String LLM :=
  if provider = "ollama" then mkOllamaLLM model_name base_url
  else if provider = "openai" then mkChatOpenAI model_name api_key
  else if provider = "azure_openai" then
    mkAzureChatOpenAI model_name api_key base_url api_version
  else .error ("Unsupported provider: " ++ provider)

/-- Modelled from the spec: rendering of a message template at invocation
time, inside the external prompt library rather than under `src/`.  Every
`\x7bidentifier\x7d` placeholder with a value in the Row Input is
substituted; per the spec's stated quirk, a placeholder without a value
(the formatting-instructions case) is passed through to the model
unsubstituted (spec sections 3 and 9). -/
def renderAux (input : RowInput) : Nat → List Char → List Char
  | 0, l => l
  | _ + 1, [] => []
  | fuel + 1, c :: rest =>
    if c = '{' then
      match matchVar rest with
      | some (w, rest2) =>
        match List.lookup w.asString input with
        | some val => val.data ++ renderAux input fuel rest2
        | none => '{' :: (w ++ '}' :: renderAux input fuel rest2)
      | none => c :: renderAux input fuel rest
    else c :: renderAux input fuel rest

/-- Rendering of a whole template string (see `renderAux`). -/
def renderTemplate (input : RowInput) (t : String) : String :=
  (renderAux input t.data.length t.data).asString

/-! ### Helper lemmas on the placeholder scanner -/

theorem asString_inj {w1 w2 : List Char} (h : List.asString w1 = List.asString w2) :
    w1 = w2 := by
  have h2 := congrArg String.data h
  simpa using h2

theorem takeWhile_word {p : Char → Bool} {w : List Char} {x : Char} (r : List Char)
    (hw : ∀ c ∈ w, p c = true) (hx : p x = false) :
    (w ++ x :: r).takeWhile p = w ∧ (w ++ x :: r).dropWhile p = x :: r := by
  induction w with
  | nil => simp [List.takeWhile, List.dropWhile, hx]
  | cons a w ih =>
    have ha : p a = true := hw a (by simp)
    have ih2 := ih fun c hc => hw c (by simp [hc])
    simp [List.takeWhile, List.dropWhile, ha, ih2.1, ih2.2]

theorem matchVar_some_spec {rest w r2 : List Char}
    (h : matchVar rest = some (w, r2)) :
    rest = w ++ '}' :: r2 ∧ w ≠ [] ∧ ∀ c ∈ w, isWordChar c = true := by
  unfold matchVar at h
  split at h
  · exact absurd h (by simp)
  · rename_i x t hd
    split at h
    · rename_i hx
      subst hx
      split at h
      · exact absurd h (by simp)
      · rename_i he
        rw [Option.some.injEq, Prod.mk.injEq] at h
        obtain ⟨hw, ht⟩ := h
        refine ⟨?_, hw ▸ he, fun c hc => List.mem_takeWhile_imp (hw ▸ hc)⟩
        have h3 := List.takeWhile_append_dropWhile isWordChar rest
        rw [hw, hd, ht] at h3
        exact h3.symm
    · exact absurd h (by simp)

theorem matchVar_of_split {w : List Char} (r : List Char)
    (hne : w ≠ []) (hw : ∀ c ∈ w, isWordChar c = true) :
    matchVar (w ++ '}' :: r) = some (w, r) := by
  obtain ⟨htake, hdrop⟩ := takeWhile_word (p := isWordChar) (x := '}') r hw (by decide)
  unfold matchVar
  rw [hdrop, htake]
  simp [hne]

theorem split_beyond {a : Char} :
    ∀ (pre t l m : List Char), l ++ a :: m = pre ++ t → a ∉ pre →
      ∃ l2, l = pre ++ l2 ∧ t = l2 ++ a :: m := by
  intro pre
  induction pre with
  | nil => intro t l m h _; exact ⟨l, by simp, by simpa using h.symm⟩
  | cons p ps ih =>
    intro t l m h hna
    cases l with
    | nil =>
      exfalso
      apply hna
      have : a = p := by simpa using congrArg (fun q => q.head?) h
      simp [this]
    | cons b l2 =>
      have hb : b = p := by simpa using congrArg (fun q => q.head?) h
      subst hb
      have h2 : l2 ++ a :: m = ps ++ t := by simpa using h
      obtain ⟨l3, h3, h4⟩ := ih t l2 m h2 (fun hmem => hna (by simp [hmem]))
      exact ⟨l3, by simp [h3], h4⟩

/-- Occurrence of `w` in `s` as a placeholder: an opening brace, one or
more word characters, and a closing brace. -/
def IsVarOcc (w s : List Char) : Prop :=
  w ≠ [] ∧ (∀ c ∈ w, isWordChar c = true) ∧ ∃ l r, s = l ++ '{' :: (w ++ '}' :: r)

theorem lbrace_not_mem_close {w0 : List Char} (hw0 : ∀ c ∈ w0, isWordChar c = true) :
    '{' ∉ w0 ++ ['}'] := by
  intro hmem
  rcases List.mem_append.mp hmem with h | h
  · have := hw0 _ h
    simp [isWordChar] at this
  · simp at h

theorem mem_findVarsAux :
    ∀ (fuel : Nat) (s : List Char), s.length ≤ fuel → ∀ w : List Char,
      (List.asString w ∈ findVarsAux fuel s ↔ IsVarOcc w s) := by
  intro fuel
  induction fuel with
  | zero =>
    intro s hs w
    have hsnil : s = [] := List.eq_nil_of_length_eq_zero (Nat.le_zero.mp hs)
    subst hsnil
    simp only [findVarsAux, List.not_mem_nil, false_iff]
    rintro ⟨-, -, l, r, h⟩
    exact absurd h (by simp)
  | succ f ih =>
    intro s hs w
    cases s with
    | nil =>
      simp only [findVarsAux, List.not_mem_nil, false_iff]
      rintro ⟨-, -, l, r, h⟩
      exact absurd h (by simp)
    | cons a rest =>
      have hrl : rest.length ≤ f := by
        have := hs
        simp only [List.length_cons] at this
        omega
      by_cases ha : a = '{'
      · subst ha
        cases hm : matchVar rest with
        | none =>
          rw [show findVarsAux (f + 1) ('{' :: rest) = findVarsAux f rest by
            simp [findVarsAux, hm]]
          rw [ih rest hrl w]
          constructor
          · rintro ⟨h1, h2, l, r, h3⟩
            exact ⟨h1, h2, '{' :: l, r, by simp [h3]⟩
          · rintro ⟨h1, h2, l, r, h3⟩
            cases l with
            | nil =>
              exfalso
              have he : rest = w ++ '}' :: r := by simpa using h3
              have h5 : matchVar rest = some (w, r) := by
                rw [he]; exact matchVar_of_split r h1 h2
              rw [hm] at h5
              exact absurd h5 (by simp)
            | cons b l2 =>
              simp only [List.cons_append, List.cons.injEq] at h3
              exact ⟨h1, h2, l2, r, h3.2⟩
        | some p =>
          obtain ⟨w0, r2⟩ := p
          obtain ⟨hrest, hw0ne, hw0w⟩ := matchVar_some_spec hm
          rw [show findVarsAux (f + 1) ('{' :: rest) =
              List.asString w0 :: findVarsAux f r2 by simp [findVarsAux, hm]]
          have hr2 : r2.length ≤ f := by
            have := congrArg List.length hrest
            simp only [List.length_append, List.length_cons] at this
            omega
          constructor
          · intro hmem
            rcases List.mem_cons.mp hmem with heq | hmem2
            · have hww : w = w0 := asString_inj heq
              subst hww
              exact ⟨hw0ne, hw0w, [], r2, by simp [hrest]⟩
            · obtain ⟨h1, h2, l, r, h3⟩ := (ih r2 hr2 w).mp hmem2
              refine ⟨h1, h2, '{' :: (w0 ++ '}' :: l), r, ?_⟩
              simp [hrest, h3]
          · rintro ⟨h1, h2, l, r, h3⟩
            cases l with
            | nil =>
              have he : rest = w ++ '}' :: r := by simpa using h3
              have h5 : matchVar rest = some (w, r) := by
                rw [he]; exact matchVar_of_split r h1 h2
              have h6 := hm.symm.trans h5
              simp only [Option.some.injEq, Prod.mk.injEq] at h6
              rw [h6.1]
              exact List.mem_cons_self _ _
            | cons b l2 =>
              simp only [List.cons_append, List.cons.injEq] at h3
              have hsplit : l2 ++ '{' :: (w ++ '}' :: r) = (w0 ++ ['}']) ++ r2 := by
                rw [← h3.2, hrest]
                simp
              obtain ⟨l3, -, h4⟩ :=
                split_beyond (w0 ++ ['}']) r2 l2 (w ++ '}' :: r) hsplit
                  (lbrace_not_mem_close hw0w)
              exact List.mem_cons_of_mem _ ((ih r2 hr2 w).mpr ⟨h1, h2, l3, r, h4⟩)
      · rw [show findVarsAux (f + 1) (a :: rest) = findVarsAux f rest by
          simp [findVarsAux, ha]]
        rw [ih rest hrl w]
        constructor
        · rintro ⟨h1, h2, l, r, h3⟩
          exact ⟨h1, h2, a :: l, r, by simp [h3]⟩
        · rintro ⟨h1, h2, l, r, h3⟩
          cases l with
          | nil =>
            exfalso
            apply ha
            simpa using congrArg (fun q => q.head?) h3
          | cons b l2 =>
            simp only [List.cons_append, List.cons.injEq] at h3
            exact ⟨h1, h2, l2, r, h3.2⟩

/-- Membership characterisation of `findVars`: exactly the identifiers
occurring as `\x7bword+\x7d` in the string. -/
theorem mem_findVars (s v : String) :
    v ∈ findVars s ↔ IsVarOcc v.data s.data := by
  have h := mem_findVarsAux s.data.length s.data le_rfl v.data
  have hv : List.asString v.data = v := by
    cases v
    rfl
  rw [hv] at h
  exact h

/-! ### C6: template variable extraction -/

/-- C6: for every pair of prompt strings the variable extractor returns
exactly the identifiers occurring as an opening brace, one or more word
characters, and a closing brace, in the system prompt or the user prompt;
the variable set is the deduplicated, order-independent union of the two
per-prompt sets; zero matches yields the empty result without error, and
malformed brace sequences are simply not matched. -/
theorem extract_variables_spec :
    (∀ s v : String, v ∈ findVars s ↔ IsVarOcc v.data s.data) ∧
    (∀ sp up v, v ∈ all_variables sp up ↔ (v ∈ findVars sp ∨ v ∈ findVars up)) ∧
    (∀ sp up, (all_variables sp up).Nodup) ∧
    all_variables ("Hi \x7bname\x7d") ("\x7bname\x7d is \x7bage\x7d") = ["name", "age"] ∧
    findVars ("no braces") = [] ∧
    findVars ("\x7ba b\x7d") = [] ∧
    findVars ("\x7b\x7d") = [] ∧
    findVars ("unmatched \x7bopen") = [] := by
  refine ⟨mem_findVars, ?_, ?_, by decide, by decide, by decide, by decide, by decide⟩
  · intro sp up v
    simp [all_variables]
  · intro sp up
    exact List.nodup_dedup _

theorem extract_variables_spec_witness :
    "name" ∈ findVars ("Hi \x7bname\x7d") ∧
    "age" ∈ all_variables ("Hi \x7bname\x7d") ("\x7bname\x7d is \x7bage\x7d") := by
  constructor
  · exact (extract_variables_spec.1 ("Hi \x7bname\x7d") "name").mpr
      ⟨by decide, by decide, "Hi ".data, [], by decide⟩
  · exact (extract_variables_spec.2.1 ("Hi \x7bname\x7d") ("\x7bname\x7d is \x7bage\x7d")
      "age").mpr (Or.inr (by decide))

/-! ### C2: the row-to-input mapper -/

theorem lookup_map_self {l : List String} {g : String → String} {v : String}
    (h : v ∈ l) : List.lookup v (l.map fun x => (x, g x)) = some (g v) := by
  induction l with
  | nil => cases h
  | cons a t ih =>
    by_cases hv : v = a
    · subst hv; simp [List.lookup]
    · rcases List.mem_cons.mp h with h1 | h1
      · exact absurd h1 hv
      · simpa [List.lookup, beq_eq_false_iff_ne.mpr hv] using ih h1

theorem lookup_map_self_none {l : List String} {g : String → String} {v : String}
    (h : v ∉ l) : List.lookup v (l.map fun x => (x, g x)) = none := by
  induction l with
  | nil => simp
  | cons a t ih =>
    have hv : v ≠ a := fun hva => h (hva ▸ List.mem_cons_self a t)
    simpa [List.lookup, beq_eq_false_iff_ne.mpr hv] using
      ih fun h1 => h (List.mem_cons_of_mem a h1)

/-- C2: the input mapper produces exactly one Row Input per row, in
original row order; each Row Input maps each extracted variable to the
string coercion of that row's cell when the variable names an existing
column, to the empty string when the cell is null/missing, and to the
empty string when the variable names no column at all (never a textual
"null"/"NaN"). -/
theorem prepare_inputs_spec (df : DataFrame) (sp up : String)
    (i : Nat) (hi : i < df.nrows) (v : String) (hv : v ∈ all_variables sp up) :
    (prepare_inputs df sp up).length = df.nrows ∧
    ∃ row, (prepare_inputs df sp up)[i]? = some row ∧
      row.map Prod.fst = all_variables sp up ∧
      List.lookup v row =
        some (if v ∈ df.columns then strCell (df.cell i v) else ("")) ∧
      (df.cell i v = none → List.lookup v row = some ("")) := by
  refine ⟨by simp [prepare_inputs], ?_⟩
  have hrow : (prepare_inputs df sp up)[i]? =
      some ((all_variables sp up).map fun v2 =>
        (v2, if v2 ∈ df.columns then strCell (df.cell i v2) else (""))) := by
    simp [prepare_inputs, List.getElem?_range hi]
  refine ⟨_, hrow, ?_, ?_, ?_⟩
  · rw [List.map_map]
    exact (List.map_congr_left fun a _ => rfl).trans (List.map_id _)
  · exact lookup_map_self hv
  · intro hnull
    rw [lookup_map_self hv, hnull]
    by_cases hc : v ∈ df.columns <;> simp [hc, strCell]

/-- Sample dataframe for concrete witnesses: two rows, columns `name`
(with a null in row 1) and `age`. -/
def dfSample : DataFrame :=
  ⟨[("name", [some ("a"), none]), ("age", [some ("3"), some ("4")])]⟩

theorem prepare_inputs_spec_witness :
    (prepare_inputs dfSample ("Hi \x7bname\x7d") ("\x7bage\x7d and \x7bcity\x7d")).length =
      dfSample.nrows := by
  exact (prepare_inputs_spec dfSample ("Hi \x7bname\x7d") ("\x7bage\x7d and \x7bcity\x7d")
    0 (by decide) "name" (by decide)).1

/-! ### C3: the result assembler -/

theorem lookup_replace_hit (cols : List (String × List Cell)) (name : String)
    (vals : List Cell) (h : name ∈ cols.map Prod.fst) :
    List.lookup name (cols.map fun p => if p.1 = name then (name, vals) else p) =
      some vals := by
  induction cols with
  | nil => simp at h
  | cons p t ih =>
    obtain ⟨k, b⟩ := p
    rw [List.map_cons]
    by_cases hp : k = name
    · rw [show (if (k, b).1 = name then (name, vals) else (k, b)) = (name, vals) from by
        simp [hp]]
      simp [List.lookup]
    · rw [show (if (k, b).1 = name then (name, vals) else (k, b)) = (k, b) from by
        simp [hp]]
      rw [List.map_cons] at h
      have hmem : name ∈ t.map Prod.fst := by
        rcases List.mem_cons.mp h with h1 | h1
        · exact absurd h1.symm hp
        · exact h1
      have hne : (name == k) = false := beq_eq_false_iff_ne.mpr fun hn => hp hn.symm
      simp [List.lookup, hne, ih hmem]

theorem lookup_replace_miss (cols : List (String × List Cell)) (name : String)
    (vals : List Cell) (c : String) (hc : c ≠ name) :
    List.lookup c (cols.map fun p => if p.1 = name then (name, vals) else p) =
      List.lookup c cols := by
  induction cols with
  | nil => simp
  | cons p t ih =>
    obtain ⟨k, b⟩ := p
    rw [List.map_cons]
    by_cases hp : k = name
    · rw [show (if (k, b).1 = name then (name, vals) else (k, b)) = (name, vals) from by
        simp [hp]]
      have hne : (c == name) = false := beq_eq_false_iff_ne.mpr hc
      have hne2 : (c == k) = false := beq_eq_false_iff_ne.mpr fun he => hc (he.trans hp)
      simp [List.lookup, hne, hne2, ih]
    · rw [show (if (k, b).1 = name then (name, vals) else (k, b)) = (k, b) from by
        simp [hp]]
      by_cases hck : c = k
      · simp [List.lookup, hck]
      · have hne : (c == k) = false := beq_eq_false_iff_ne.mpr hck
        simp [List.lookup, hne, ih]

theorem lookup_append_pairs (l1 l2 : List (String × List Cell)) (c : String) :
    List.lookup c (l1 ++ l2) =
      (match List.lookup c l1 with
        | some v => some v
        | none => List.lookup c l2) := by
  induction l1 with
  | nil => simp
  | cons p t ih =>
    obtain ⟨k, b⟩ := p
    by_cases hck : c = k
    · simp [List.lookup, hck]
    · have hne : (c == k) = false := beq_eq_false_iff_ne.mpr hck
      simp [List.lookup, hne, ih]

theorem lookup_none_of_not_mem (cols : List (String × List Cell)) (c : String)
    (h : c ∉ cols.map Prod.fst) : List.lookup c cols = none := by
  induction cols with
  | nil => simp
  | cons p t ih =>
    obtain ⟨k, b⟩ := p
    rw [List.map_cons] at h
    have hck : c ≠ k := fun he => h (by simp [he])
    have hne : (c == k) = false := beq_eq_false_iff_ne.mpr hck
    simpa [List.lookup, hne] using ih fun h1 => h (List.mem_cons_of_mem _ h1)

/-- C3: the result assembler returns a new dataframe whose columns other
than the named output column are identical to the original's, with the
output column added at the end (or replaced in place if already present),
holding the outputs aligned by row position; reading the output column
back from the result yields the output list unchanged, and the row count
is preserved.  The embedding is pure, so the original dataframe value
passed in is unchanged by construction (the source works on `df.copy()`). -/
theorem assemble_result_spec (df : DataFrame) (name : String) (outputs : List String)
    (h : outputs.length = df.nrows) :
    (setColumn df name (outputs.map some)).getCol name = some (outputs.map some) ∧
    (∀ c, c ≠ name → (setColumn df name (outputs.map some)).getCol c = df.getCol c) ∧
    (setColumn df name (outputs.map some)).nrows = df.nrows ∧
    (setColumn df name (outputs.map some)).columns =
      (if name ∈ df.columns then df.columns else df.columns ++ [name]) := by
  by_cases hmem : name ∈ df.columns
  · rw [show setColumn df name (outputs.map some) =
      ⟨df.cols.map fun p => if p.1 = name then (name, outputs.map some) else p⟩ from by
        simp [setColumn, hmem]]
    refine ⟨?_, ?_, ?_, ?_⟩
    · exact lookup_replace_hit df.cols name _ hmem
    · intro c hc
      exact lookup_replace_miss df.cols name _ c hc
    · cases hcols : df.cols with
      | nil => exact absurd hmem (by simp [DataFrame.columns, hcols])
      | cons p t =>
        obtain ⟨k, b⟩ := p
        have hn : df.nrows = b.length := by simp [DataFrame.nrows, hcols]
        rw [List.map_cons]
        by_cases hp : k = name
        · rw [show (if (k, b).1 = name then (name, outputs.map some) else (k, b)) =
            (name, outputs.map some) from by simp [hp]]
          show (outputs.map some).length = df.nrows
          simp [h]
        · rw [show (if (k, b).1 = name then (name, outputs.map some) else (k, b)) =
            (k, b) from by simp [hp]]
          exact hn.symm
    · rw [if_pos hmem]
      show (df.cols.map _).map Prod.fst = df.cols.map Prod.fst
      rw [List.map_map]
      refine List.map_congr_left fun p _ => ?_
      by_cases hp : p.1 = name <;> simp [hp]
  · rw [show setColumn df name (outputs.map some) =
      ⟨df.cols ++ [(name, outputs.map some)]⟩ from by simp [setColumn, hmem]]
    refine ⟨?_, ?_, ?_, ?_⟩
    · show List.lookup name (df.cols ++ [(name, outputs.map some)]) = _
      rw [lookup_append_pairs, lookup_none_of_not_mem df.cols name hmem]
      simp [List.lookup]
    · intro c hc
      show List.lookup c (df.cols ++ [(name, outputs.map some)]) = _
      rw [lookup_append_pairs]
      have hne : (c == name) = false := beq_eq_false_iff_ne.mpr hc
      cases hl : List.lookup c df.cols <;>
        simp [List.lookup, hne, DataFrame.getCol, hl]
    · cases hcols : df.cols with
      | nil =>
        have hn : df.nrows = 0 := by simp [DataFrame.nrows, hcols]
        have ho : outputs = [] := List.eq_nil_of_length_eq_zero (by omega)
        rw [ho, hn]
        rfl
      | cons p t =>
        have hn : df.nrows = p.2.length := by simp [DataFrame.nrows, hcols]
        rw [hn]
        rfl
    · rw [if_neg hmem]
      simp [DataFrame.columns]

theorem assemble_result_spec_witness :
    (setColumn dfSample ("out") ((["x", "y"]).map some)).getCol ("out") =
      some ((["x", "y"]).map some) := by
  exact (assemble_result_spec dfSample ("out") (["x", "y"]) (by decide)).1

/-! ### Chunking and the batch strategies -/

theorem chunkList_cons {α : Type} {bs : Nat} (hbs : bs ≠ 0) (x : α) (xs : List α) :
    chunkList bs (x :: xs) = (x :: xs).take bs :: chunkList bs ((x :: xs).drop bs) := by
  rw [chunkList]
  rw [dif_neg hbs]

theorem chunkList_eq_nil {α : Type} {bs : Nat} (hbs : bs ≠ 0) (l : List α) :
    chunkList bs l = [] ↔ l = [] := by
  cases l with
  | nil => simp [chunkList]
  | cons x xs => simp [chunkList_cons hbs]

theorem chunkList_flatten_aux {α : Type} {bs : Nat} (hbs : bs ≠ 0) :
    ∀ (n : Nat) (l : List α), l.length ≤ n → (chunkList bs l).flatten = l := by
  intro n
  induction n with
  | zero =>
    intro l hl
    have : l = [] := List.eq_nil_of_length_eq_zero (by omega)
    subst this
    simp [chunkList]
  | succ m ih =>
    intro l hl
    cases l with
    | nil => simp [chunkList]
    | cons x xs =>
      rw [chunkList_cons hbs, List.flatten_cons,
        ih ((x :: xs).drop bs) (by simp [List.length_drop] at hl ⊢; omega)]
      exact List.take_append_drop bs (x :: xs)

theorem chunkList_flatten {α : Type} {bs : Nat} (hbs : bs ≠ 0) (l : List α) :
    (chunkList bs l).flatten = l :=
  chunkList_flatten_aux hbs l.length l le_rfl

theorem chunkList_length_aux {α : Type} {bs : Nat} (hbs : bs ≠ 0) :
    ∀ (n : Nat) (l : List α), l.length ≤ n →
      (chunkList bs l).length = (l.length + bs - 1) / bs := by
  intro n
  induction n with
  | zero =>
    intro l hl
    have hln : l = [] := List.eq_nil_of_length_eq_zero (by omega)
    subst hln
    simp [chunkList]
    exact (Nat.div_eq_of_lt (by omega)).symm
  | succ m ih =>
    intro l hl
    cases l with
    | nil =>
      simp [chunkList]
      exact (Nat.div_eq_of_lt (by omega)).symm
    | cons x xs =>
      rw [chunkList_cons hbs, List.length_cons,
        ih ((x :: xs).drop bs) (by simp [List.length_drop] at hl ⊢; omega)]
      rw [List.length_drop]
      rcases Nat.le_total (x :: xs).length bs with hle | hle
      · have hL : 1 ≤ (x :: xs).length := by simp
        have h1 : (x :: xs).length - bs = 0 := by omega
        have h3 : ((x :: xs).length + bs - 1) / bs = 1 := by
          apply Nat.div_eq_of_lt_le <;> omega
        have h2 : (0 + bs - 1) / bs = 0 := Nat.div_eq_of_lt (by omega)
        rw [h1, h2, h3]
      · have hL : 1 ≤ (x :: xs).length := by simp
        have h1 : (x :: xs).length - bs + bs - 1 = ((x :: xs).length - 1) := by omega
        have h2 : (x :: xs).length + bs - 1 = ((x :: xs).length - 1) + bs := by omega
        rw [h1, h2, Nat.add_div_right _ (by omega)]

theorem chunkList_length {α : Type} {bs : Nat} (hbs : bs ≠ 0) (l : List α) :
    (chunkList bs l).length = (l.length + bs - 1) / bs :=
  chunkList_length_aux hbs l.length l le_rfl

theorem chunkList_mem_aux {α : Type} {bs : Nat} (hbs : bs ≠ 0) :
    ∀ (n : Nat) (l : List α), l.length ≤ n →
      ∀ c ∈ chunkList bs l, c ≠ [] ∧ c.length ≤ bs := by
  intro n
  induction n with
  | zero =>
    intro l hl
    have : l = [] := List.eq_nil_of_length_eq_zero (by omega)
    subst this
    simp [chunkList]
  | succ m ih =>
    intro l hl c hc
    cases l with
    | nil => simp [chunkList] at hc
    | cons x xs =>
      rw [chunkList_cons hbs] at hc
      rcases List.mem_cons.mp hc with h1 | h1
      · subst h1
        constructor
        · apply List.ne_nil_of_length_pos
          rw [List.length_take]
          simp [List.length_cons]
          omega
        · rw [List.length_take]
          exact Nat.min_le_left bs _
      · exact ih ((x :: xs).drop bs)
          (by simp [List.length_drop] at hl ⊢; omega) c h1

theorem chunkList_dropLast_aux {α : Type} {bs : Nat} (hbs : bs ≠ 0) :
    ∀ (n : Nat) (l : List α), l.length ≤ n →
      ∀ c ∈ (chunkList bs l).dropLast, c.length = bs := by
  intro n
  induction n with
  | zero =>
    intro l hl
    have : l = [] := List.eq_nil_of_length_eq_zero (by omega)
    subst this
    simp [chunkList]
  | succ m ih =>
    intro l hl c hc
    cases l with
    | nil => simp [chunkList] at hc
    | cons x xs =>
      rw [chunkList_cons hbs] at hc
      by_cases hrest : chunkList bs ((x :: xs).drop bs) = []
      · rw [hrest] at hc
        simp at hc
      · rw [List.dropLast_cons_of_ne_nil hrest] at hc
        rcases List.mem_cons.mp hc with h1 | h1
        · subst h1
          have hdrop : (x :: xs).drop bs ≠ [] :=
            fun hd => hrest (by rw [hd]; simp [chunkList])
          have hlen : bs < (x :: xs).length := by
            by_contra hle
            exact hdrop (List.drop_eq_nil_of_le (by omega))
          rw [List.length_take]
          omega
        · exact ih ((x :: xs).drop bs)
            (by simp [List.length_drop] at hl ⊢; omega) c h1

theorem invoke_many_ok (f : RowInput → String) (l : List RowInput) :
    invoke_many (fun x => .ok (f x)) l = .ok (l.map f) := by
  induction l with
  | nil => rfl
  | cons x xs ih => simp [invoke_many, ih]

theorem invoke_many_error (chain : RowInput → Except String String)
    (l : List RowInput) (h : ∃ x ∈ l, ∃ e, chain x = .error e) :
    ∃ e2, invoke_many chain l = .error e2 := by
  induction l with
  | nil =>
    obtain ⟨x, hx, -⟩ := h
    cases hx
  | cons y ys ih =>
    obtain ⟨x, hx, e, he⟩ := h
    rcases List.mem_cons.mp hx with h1 | h1
    · subst h1
      exact ⟨e, by simp [invoke_many, he]⟩
    · cases hc : chain y with
      | error e2 => exact ⟨e2, by simp [invoke_many, hc]⟩
      | ok v =>
        obtain ⟨e3, he3⟩ := ih ⟨x, h1, e, he⟩
        exact ⟨e3, by simp [invoke_many, hc, he3]⟩

theorem batchLoop_cons_ok (chain : RowInput → Except String String)
    (p tb tr : Nat) (x : RowInput) (xs : List RowInput) (k : Nat)
    (outs : List String) (t : List Progress) (b : List String)
    (hb : invoke_many chain ((x :: xs).take (p + 1)) = .ok b) :
    batchLoop chain p tb tr (x :: xs) k outs t =
      batchLoop chain p tb tr ((x :: xs).drop (p + 1)) (k + 1) (outs ++ b)
        (t ++ [⟨k + 1, tb, (outs ++ b).length, tr⟩]) := by
  rw [batchLoop, hb]

theorem batchLoop_cons_error (chain : RowInput → Except String String)
    (p tb tr : Nat) (x : RowInput) (xs : List RowInput) (k : Nat)
    (outs : List String) (t : List Progress) (e : String)
    (hb : invoke_many chain ((x :: xs).take (p + 1)) = .error e) :
    batchLoop chain p tb tr (x :: xs) k outs t = .error e := by
  rw [batchLoop, hb]

theorem batchLoop_ok_aux (f : RowInput → String) (p tb tr : Nat) :
    ∀ (n : Nat) (l : List RowInput), l.length ≤ n →
      ∀ (k : Nat) (outs : List String) (t : List Progress),
      batchLoop (fun x => .ok (f x)) p tb tr l k outs t =
        .ok (outs ++ l.map f,
             t ++ (List.range (chunkList (p + 1) l).length).map fun j =>
               ⟨k + j + 1, tb, outs.length + min ((j + 1) * (p + 1)) l.length, tr⟩) := by
  intro n
  induction n with
  | zero =>
    intro l hl k outs t
    have hln : l = [] := List.eq_nil_of_length_eq_zero (by omega)
    subst hln
    simp [batchLoop, chunkList]
  | succ m ih =>
    intro l hl k outs t
    cases l with
    | nil => simp [batchLoop, chunkList]
    | cons x xs =>
      rw [batchLoop_cons_ok (fun x => .ok (f x)) p tb tr x xs k outs t _
        (invoke_many_ok f _)]
      rw [ih ((x :: xs).drop (p + 1))
        (by simp only [List.length_drop, List.length_cons] at hl ⊢; omega) (k + 1) _ _]
      simp only [Except.ok.injEq, Prod.mk.injEq]
      constructor
      · rw [List.append_assoc, ← List.map_append, List.take_append_drop]
      · have hchunk : (chunkList (p + 1) (x :: xs)).length =
            (chunkList (p + 1) ((x :: xs).drop (p + 1))).length + 1 := by
          rw [chunkList_cons (by omega)]
          rfl
        rw [hchunk, List.range_succ_eq_map, List.map_cons, List.map_map,
          List.append_assoc, List.singleton_append]
        congr 1
        congr 1
        · have h01 : (0 + 1) * (p + 1) = p + 1 := by ring
          simp only [List.length_append, List.length_map, List.length_take,
            List.length_cons, h01]
        · refine List.map_congr_left fun j _ => ?_
          have hmul : (j + 1 + 1) * (p + 1) = (j + 1) * (p + 1) + (p + 1) := by ring
          simp only [Function.comp, Nat.succ_eq_add_one, List.length_append,
            List.length_map, List.length_take, List.length_drop, List.length_cons]
          all_goals congr 1
          all_goals omega

theorem batch_process_ok (f : RowInput → String) (inputs : List RowInput) (bs : Nat)
    (hbs : 1 ≤ bs) :
    batch_process (fun x => .ok (f x)) inputs bs =
      .ok (inputs.map f,
        (List.range ((inputs.length + bs - 1) / bs)).map fun j =>
          ⟨j + 1, (inputs.length + bs - 1) / bs, min ((j + 1) * bs) inputs.length,
           inputs.length⟩) := by
  have hbs0 : bs ≠ 0 := by omega
  have hp : bs - 1 + 1 = bs := by omega
  rw [batch_process, if_neg hbs0,
    batchLoop_ok_aux f (bs - 1) _ _ inputs.length inputs le_rfl 0 [] []]
  simp only [hp, List.nil_append, Nat.zero_add, chunkList_length hbs0]
  simp

theorem seqLoop_cons_ok (chain : RowInput → Except String String) (tr : Nat)
    (x : RowInput) (xs : List RowInput) (idx : Nat) (outs : List String)
    (t : List Progress) (out : String) (hx : chain x = .ok out) :
    seqLoop chain tr (x :: xs) idx outs t =
      seqLoop chain tr xs (idx + 1) (outs ++ [out])
        (t ++ [⟨idx, tr, idx, tr⟩]) := by
  rw [seqLoop, hx]

theorem seqLoop_cons_error (chain : RowInput → Except String String) (tr : Nat)
    (x : RowInput) (xs : List RowInput) (idx : Nat) (outs : List String)
    (t : List Progress) (e : String) (hx : chain x = .error e) :
    seqLoop chain tr (x :: xs) idx outs t = .error e := by
  rw [seqLoop, hx]

theorem seqLoop_ok (f : RowInput → String) (tr : Nat) :
    ∀ (l : List RowInput) (idx : Nat) (outs : List String) (t : List Progress),
      seqLoop (fun x => .ok (f x)) tr l idx outs t =
        .ok (outs ++ l.map f,
             t ++ (List.range l.length).map fun j => ⟨idx + j, tr, idx + j, tr⟩) := by
  intro l
  induction l with
  | nil => intro idx outs t; simp [seqLoop]
  | cons x xs ih =>
    intro idx outs t
    rw [seqLoop_cons_ok (fun x => .ok (f x)) tr x xs idx outs t (f x) rfl, ih]
    simp only [Except.ok.injEq, Prod.mk.injEq]
    constructor
    · simp
    · rw [List.length_cons, List.range_succ_eq_map, List.map_cons, List.map_map,
        List.append_assoc, List.singleton_append]
      congr 1
      congr 1
      refine List.map_congr_left fun j _ => ?_
      simp only [Function.comp, Nat.succ_eq_add_one]
      have hj : idx + 1 + j = idx + (j + 1) := by omega
      rw [hj]

theorem sequential_process_ok (f : RowInput → String) (inputs : List RowInput) :
    sequential_process (fun x => .ok (f x)) inputs =
      .ok (inputs.map f,
        (List.range inputs.length).map fun j =>
          ⟨j + 1, inputs.length, j + 1, inputs.length⟩) := by
  rw [sequential_process, seqLoop_ok]
  simp only [List.nil_append]
  refine congrArg Except.ok (congrArg (Prod.mk (inputs.map f)) ?_)
  refine List.map_congr_left fun j _ => ?_
  have hj : 1 + j = j + 1 := by omega
  rw [hj]

/-! ### C1: the synchronous batch strategy -/

/-- C1: for every non-empty input list and every batch size at least 1,
the synchronous batch strategy partitions the inputs into
`ceil(len(inputs)/batch_size)` consecutive chunks (each of size
`batch_size` except a possibly smaller last chunk), invokes the chain once
per chunk, concatenates chunk outputs in chunk order, and after each chunk
reports `(1-based chunk index, ceil(total_rows/batch_size), cumulative
outputs so far, input length)`; in particular for `batch_size = 10` and 25
rows it reports exactly `(1,3,10,25), (2,3,20,25), (3,3,25,25)` in order. -/
theorem batch_strategy_spec (f : RowInput → String) (inputs : List RowInput)
    (batch_size : Nat) (hne : inputs ≠ []) (hbs : 1 ≤ batch_size) :
    (chunkList batch_size inputs).length =
      (inputs.length + batch_size - 1) / batch_size ∧
    (chunkList batch_size inputs).flatten = inputs ∧
    (∀ c ∈ chunkList batch_size inputs, c ≠ [] ∧ c.length ≤ batch_size) ∧
    (∀ c ∈ (chunkList batch_size inputs).dropLast, c.length = batch_size) ∧
    batch_process (fun x => .ok (f x)) inputs batch_size =
      .ok (((chunkList batch_size inputs).map (List.map f)).flatten,
        (List.range ((inputs.length + batch_size - 1) / batch_size)).map fun j =>
          ⟨j + 1, (inputs.length + batch_size - 1) / batch_size,
           min ((j + 1) * batch_size) inputs.length, inputs.length⟩) ∧
    ((chunkList batch_size inputs).map (List.map f)).flatten = inputs.map f ∧
    (∀ inputs25 : List RowInput, inputs25.length = 25 →
      batch_process (fun x => .ok (f x)) inputs25 10 =
        .ok (inputs25.map f,
          [⟨1, 3, 10, 25⟩, ⟨2, 3, 20, 25⟩, ⟨3, 3, 25, 25⟩])) := by
  have hbs0 : batch_size ≠ 0 := by omega
  have hflat : ((chunkList batch_size inputs).map (List.map f)).flatten =
      inputs.map f := by
    rw [← List.map_flatten, chunkList_flatten hbs0]
  refine ⟨chunkList_length hbs0 inputs, chunkList_flatten hbs0 inputs,
    fun c hc => chunkList_mem_aux hbs0 inputs.length inputs le_rfl c hc,
    fun c hc => chunkList_dropLast_aux hbs0 inputs.length inputs le_rfl c hc,
    ?_, hflat, ?_⟩
  · rw [batch_process_ok f inputs batch_size hbs, hflat]
  · intro inputs25 h25
    rw [batch_process_ok f inputs25 10 (by omega), h25]
    refine congrArg Except.ok (congrArg (Prod.mk (inputs25.map f)) ?_)
    decide

theorem batch_strategy_spec_witness :
    (chunkList 2 ([[("a", "b")], [("a", "c")], [("a", "d")]] : List RowInput)).flatten =
      [[("a", "b")], [("a", "c")], [("a", "d")]] := by
  exact (batch_strategy_spec (fun _ => "out") [[("a", "b")], [("a", "c")], [("a", "d")]]
    2 (by decide) (by decide)).2.1

/-! ### C5: the sequential strategy -/

/-- C5: for every input list of `n` rows, the sequential strategy invokes
the chain once per Row Input, strictly in input order (the i-th output is
the chain's output on the i-th input), and reports progress exactly `n`
times with `(i, n, i, n)` for `i = 1..n` in strictly increasing order. -/
theorem sequential_strategy_spec (f : RowInput → String) (inputs : List RowInput) :
    sequential_process (fun x => .ok (f x)) inputs =
      .ok (inputs.map f,
        (List.range inputs.length).map fun j =>
          ⟨j + 1, inputs.length, j + 1, inputs.length⟩) ∧
    (inputs.map f).length = inputs.length ∧
    ((List.range inputs.length).map fun j =>
       (⟨j + 1, inputs.length, j + 1, inputs.length⟩ : Progress)).length =
      inputs.length ∧
    (∀ i (h : i < inputs.length),
      (inputs.map f).get ⟨i, by simpa using h⟩ = f (inputs.get ⟨i, h⟩)) ∧
    (∀ i (h : i < inputs.length),
      ((List.range inputs.length).map fun j =>
        (⟨j + 1, inputs.length, j + 1, inputs.length⟩ : Progress)).get
          ⟨i, by simpa using h⟩ =
        ⟨i + 1, inputs.length, i + 1, inputs.length⟩) := by
  refine ⟨sequential_process_ok f inputs, by simp, by simp, ?_, ?_⟩
  · intro i h
    simp [List.get_eq_getElem, List.getElem_map]
  · intro i h
    simp [List.get_eq_getElem, List.getElem_map, List.getElem_range]

theorem sequential_strategy_spec_witness :
    (([[("a", "b")], [("a", "c")]] : List RowInput).map fun _ => "out").get
        ⟨1, by decide⟩ =
      (fun _ => "out") (([[("a", "b")], [("a", "c")]] : List RowInput).get
        ⟨1, by decide⟩) := by
  exact (sequential_strategy_spec (fun _ => "out")
    [[("a", "b")], [("a", "c")]]).2.2.2.1 1 (by decide)

/-! ### Error propagation through the strategies -/

theorem seqLoop_fails (chain : RowInput → Except String String) (tr : Nat) :
    ∀ (l : List RowInput) (idx : Nat) (outs : List String) (t : List Progress),
      (∃ x ∈ l, ∃ e, chain x = .error e) →
      ∃ e2, seqLoop chain tr l idx outs t = .error e2 := by
  intro l
  induction l with
  | nil =>
    rintro idx outs t ⟨x, hx, -⟩
    cases hx
  | cons y ys ih =>
    rintro idx outs t ⟨x, hx, e, he⟩
    cases hc : chain y with
    | error e2 => exact ⟨e2, seqLoop_cons_error chain tr y ys idx outs t e2 hc⟩
    | ok out =>
      rcases List.mem_cons.mp hx with h1 | h1
      · subst h1
        rw [hc] at he
        cases he
      · obtain ⟨e2, he2⟩ := ih (idx + 1) (outs ++ [out])
          (t ++ [⟨idx, tr, idx, tr⟩]) ⟨x, h1, e, he⟩
        exact ⟨e2, by
          rw [seqLoop_cons_ok chain tr y ys idx outs t out hc]
          exact he2⟩

theorem sequential_process_fails (chain : RowInput → Except String String)
    (inputs : List RowInput) (h : ∃ x ∈ inputs, ∃ e, chain x = .error e) :
    ∃ e2, sequential_process chain inputs = .error e2 :=
  seqLoop_fails chain inputs.length inputs 1 [] [] h

theorem batchLoop_fails (chain : RowInput → Except String String) (p tb tr : Nat) :
    ∀ (n : Nat) (l : List RowInput), l.length ≤ n →
      ∀ (k : Nat) (outs : List String) (t : List Progress),
      (∃ x ∈ l, ∃ e, chain x = .error e) →
      ∃ e2, batchLoop chain p tb tr l k outs t = .error e2 := by
  intro n
  induction n with
  | zero =>
    rintro l hl k outs t ⟨x, hx, -⟩
    have hln : l = [] := List.eq_nil_of_length_eq_zero (by omega)
    subst hln
    cases hx
  | succ m ih =>
    rintro l hl k outs t ⟨x, hx, e, he⟩
    cases l with
    | nil => cases hx
    | cons y ys =>
      cases hb : invoke_many chain ((y :: ys).take (p + 1)) with
      | error e2 => exact ⟨e2, batchLoop_cons_error chain p tb tr y ys k outs t e2 hb⟩
      | ok b =>
        have hsplit : x ∈ (y :: ys).take (p + 1) ++ (y :: ys).drop (p + 1) := by
          rw [List.take_append_drop]
          exact hx
        rcases List.mem_append.mp hsplit with h1 | h1
        · exfalso
          obtain ⟨e3, he3⟩ := invoke_many_error chain _ ⟨x, h1, e, he⟩
          rw [hb] at he3
          cases he3
        · obtain ⟨e2, he2⟩ := ih ((y :: ys).drop (p + 1))
            (by simp only [List.length_drop, List.length_cons] at hl ⊢; omega)
            (k + 1) (outs ++ b)
            (t ++ [⟨k + 1, tb, (outs ++ b).length, tr⟩]) ⟨x, h1, e, he⟩
          exact ⟨e2, by
            rw [batchLoop_cons_ok chain p tb tr y ys k outs t b hb]
            exact he2⟩

theorem batch_process_fails (chain : RowInput → Except String String)
    (inputs : List RowInput) (bs : Nat)
    (h : ∃ x ∈ inputs, ∃ e, chain x = .error e) :
    ∃ e2, batch_process chain inputs bs = .error e2 := by
  by_cases hbs : bs = 0
  · exact ⟨_, by rw [batch_process, if_pos hbs]⟩
  · rw [batch_process, if_neg hbs]
    exact batchLoop_fails chain (bs - 1) _ _ inputs.length inputs le_rfl 0 [] [] h

theorem process_dataframe_fails (llm : Chain → RowInput → Except String String)
    (df : DataFrame) (sp up fi oc mode : String) (bs : Nat)
    (h : ∃ inp ∈ prepare_inputs df sp up, ∃ e,
      llm (create_chain sp up fi) inp = .error e) :
    ∃ e2, process_dataframe llm df sp up fi oc mode bs = .error e2 := by
  by_cases hm1 : mode = "batch"
  · obtain ⟨e2, he2⟩ :=
      batch_process_fails (llm (create_chain sp up fi)) (prepare_inputs df sp up) bs h
    exact ⟨e2, by simp [process_dataframe, hm1, he2]⟩
  · by_cases hm2 : mode = "async_batch"
    · obtain ⟨e2, he2⟩ :=
        batch_process_fails (llm (create_chain sp up fi)) (prepare_inputs df sp up) bs h
      exact ⟨e2, by simp [process_dataframe, async_batch_process, hm1, hm2, he2]⟩
    · obtain ⟨e2, he2⟩ :=
        sequential_process_fails (llm (create_chain sp up fi)) (prepare_inputs df sp up) h
      exact ⟨e2, by simp [process_dataframe, hm1, hm2, he2]⟩

/-! ### C4: invocation errors abort the run -/

/-- C4: if any single-row or single-chunk model invocation raises, the
error is neither retried nor caught per row: the whole run returns the
error (no dataframe and no partial outputs are produced), and the
committed session dataframe is unchanged from before the run, in every
mode. -/
theorem invocation_error_aborts (llm : Chain → RowInput → Except String String)
    (state : DataFrame) (sp up fi oc mode : String) (bs : Nat)
    (h : ∃ inp ∈ prepare_inputs state sp up, ∃ e,
      llm (create_chain sp up fi) inp = .error e) :
    (∃ e2, process_dataframe llm state sp up fi oc mode bs = .error e2) ∧
    appStep true llm state sp up fi oc mode bs = state := by
  obtain ⟨e2, he2⟩ := process_dataframe_fails llm state sp up fi oc mode bs h
  exact ⟨⟨e2, he2⟩, by simp [appStep, he2]⟩

theorem invocation_error_aborts_witness :
    appStep true (fun _ _ => .error ("boom")) dfSample ("p") ("\x7bname\x7d")
      ("fmt") ("out") ("batch") 10 = dfSample := by
  exact (invocation_error_aborts (fun _ _ => .error ("boom")) dfSample ("p")
    ("\x7bname\x7d") ("fmt") ("out") ("batch") 10
    ⟨[("name", "a")], by decide, "boom", rfl⟩).2

/-! ### C10: unrecognised modes fall back to the sequential strategy -/

/-- C10: for every mode string other than "batch" and "async_batch"
(misspellings and arbitrary strings included), `process_dataframe` does
not raise an error for the unrecognised mode: it silently falls back to
the sequential strategy, so an invalid mode is indistinguishable from
mode = "sequential". -/
theorem invalid_mode_falls_back_to_sequential
    (llm : Chain → RowInput → Except String String) (df : DataFrame)
    (sp up fi oc mode : String) (bs : Nat)
    (h1 : mode ≠ "batch") (h2 : mode ≠ "async_batch") :
    process_dataframe llm df sp up fi oc mode bs =
      process_dataframe llm df sp up fi oc ("sequential") bs := by
  simp [process_dataframe, h1, h2]

theorem invalid_mode_falls_back_to_sequential_witness :
    process_dataframe (fun _ _ => .ok ("v")) dfSample ("p") ("\x7bname\x7d") ("fmt")
      ("out") ("Batch") 3 =
      process_dataframe (fun _ _ => .ok ("v")) dfSample ("p") ("\x7bname\x7d") ("fmt")
        ("out") ("sequential") 3 := by
  exact invalid_mode_falls_back_to_sequential (fun _ _ => .ok ("v")) dfSample ("p")
    ("\x7bname\x7d") ("fmt") ("out") ("Batch") 3 (by decide) (by decide)

/-! ### C7: validation blocks processing -/

/-- C7: for every job whose variable set contains a name not present in
the dataset's columns, or whose variable set is empty, the validation
gate blocks processing before any LLM call: `can_process` is false, the
offending names are exactly the recorded `invalid_vars`, an error message
is accumulated, and the process step leaves the session dataframe
unchanged for every model client — zero calls reach the model client
while the job is invalid. -/
theorem validation_blocks_processing (sp up : String) (df : DataFrame)
    (api_key_ok : Bool)
    (h : all_variables sp up = [] ∨ ∃ v ∈ all_variables sp up, v ∉ df.columns) :
    can_process (all_variables sp up) df.columns api_key_ok = false ∧
    (∀ v, v ∈ invalid_vars (all_variables sp up) df.columns ↔
      (v ∈ all_variables sp up ∧ v ∉ df.columns)) ∧
    error_msg (all_variables sp up) df.columns api_key_ok ≠ [] ∧
    (∀ (llm : Chain → RowInput → Except String String) fi oc mode bs,
      appStep (can_process (all_variables sp up) df.columns api_key_ok) llm df
        sp up fi oc mode bs = df) := by
  have hinv : ∀ v, v ∈ invalid_vars (all_variables sp up) df.columns ↔
      (v ∈ all_variables sp up ∧ v ∉ df.columns) := by
    intro v
    simp [invalid_vars, List.mem_filter]
  have hinvne : (∃ v ∈ all_variables sp up, v ∉ df.columns) →
      invalid_vars (all_variables sp up) df.columns ≠ [] := by
    rintro ⟨v, hv1, hv2⟩ hnil
    have hmem := (hinv v).mpr ⟨hv1, hv2⟩
    rw [hnil] at hmem
    cases hmem
  have hcp : can_process (all_variables sp up) df.columns api_key_ok = false := by
    rcases h with h | h
    · simp [can_process, h]
    · by_cases he : (all_variables sp up).isEmpty
      · simp [can_process, he]
      · have h2 : (invalid_vars (all_variables sp up) df.columns).isEmpty = false := by
          cases hli : invalid_vars (all_variables sp up) df.columns with
          | nil => exact absurd hli (hinvne h)
          | cons a t => rfl
        simp [can_process, he, h2]
  have hmsg : error_msg (all_variables sp up) df.columns api_key_ok ≠ [] := by
    by_cases he : (all_variables sp up).isEmpty
    · simp [error_msg, he]
    · rcases h with h | h
      · exact absurd (by simp [h] : (all_variables sp up).isEmpty = true) he
      · have h2 : (invalid_vars (all_variables sp up) df.columns).isEmpty = false := by
          cases hli : invalid_vars (all_variables sp up) df.columns with
          | nil => exact absurd hli (hinvne h)
          | cons a t => rfl
        simp [error_msg, he, h2]
  refine ⟨hcp, hinv, hmsg, ?_⟩
  intro llm fi oc mode bs
  rw [hcp]
  simp [appStep]

theorem validation_blocks_processing_witness :
    can_process (all_variables ("\x7bcity\x7d") ("q")) dfSample.columns true = false := by
  exact (validation_blocks_processing ("\x7bcity\x7d") ("q") dfSample true
    (Or.inr ⟨"city", by decide, by decide⟩)).1

/-! ### C8: model client construction -/

/-- C8: constructing the model client fails with a configuration error
whenever the provider identifier is not one of the three recognised
variants (ollama / openai / azure_openai), and likewise — with the
credential presence checks modelled from the spec, since they live in
the external client libraries — when a required credential or endpoint
is missing for a provider that requires one; for a recognised provider
with its required credentials, construction succeeds. -/
theorem llm_construction_spec (provider model_name : String)
    (api_key base_url api_version : Option String)
    (h : provider ∉ (["ollama", "openai", "azure_openai"] : List String)) :
    LLMProcessor.init provider model_name api_key base_url api_version =
      .error ("Unsupported provider: " ++ provider) ∧
    LLMProcessor.init ("openai") model_name none base_url api_version =
      .error ("missing API key") ∧
    (∀ k, LLMProcessor.init ("openai") model_name (some k) base_url api_version =
      .ok (.chatOpenAI model_name k)) ∧
    LLMProcessor.init ("ollama") model_name api_key base_url api_version =
      .ok (.ollamaLLM model_name base_url) ∧
    (∀ k e v, LLMProcessor.init ("azure_openai") model_name
      (some k) (some e) (some v) = .ok (.azureChatOpenAI model_name k e v)) ∧
    ((api_key = none ∨ base_url = none ∨ api_version = none) →
      ∃ e2, LLMProcessor.init ("azure_openai") model_name api_key base_url
        api_version = .error e2) := by
  have h1 : provider ≠ "ollama" := fun he => h (by simp [he])
  have h2 : provider ≠ "openai" := fun he => h (by simp [he])
  have h3 : provider ≠ "azure_openai" := fun he => h (by simp [he])
  refine ⟨by simp [LLMProcessor.init, h1, h2, h3], ?_, ?_, ?_, ?_, ?_⟩
  · simp [LLMProcessor.init, mkChatOpenAI]
  · intro k
    simp [LLMProcessor.init, mkChatOpenAI]
  · simp [LLMProcessor.init, mkOllamaLLM]
  · intro k e v
    simp [LLMProcessor.init, mkAzureChatOpenAI]
  · intro hmiss
    cases api_key <;> cases base_url <;> cases api_version <;>
      simp_all [LLMProcessor.init, mkAzureChatOpenAI]

theorem llm_construction_spec_witness :
    LLMProcessor.init ("bedrock") ("m") none none none =
      .error ("Unsupported provider: " ++ "bedrock") := by
  exact (llm_construction_spec ("bedrock") ("m") none none none (by decide)).1

/-! ### C9: formatting instructions are invisible to substitution -/

theorem renderAux_passes_unknown (input : RowInput) (tok : List Char)
    (hne : tok ≠ []) (hw : ∀ c ∈ tok, isWordChar c = true)
    (hlook : List.lookup (List.asString tok) input = none)
    (fuel : Nat) (r : List Char) :
    renderAux input (fuel + 1) ('{' :: (tok ++ '}' :: r)) =
      '{' :: (tok ++ '}' :: renderAux input fuel r) := by
  have hm := matchVar_of_split r hne hw
  simp [renderAux, hm, hlook]

/-- C9: the bound chain's system message is the literal concatenation of
the system prompt and the formatting instructions separated by a blank
line, and placeholders are extracted only from the system and user
prompts, never from the formatting instructions: a placeholder token
occurring in the formatting instructions but not among the extracted
variables is extractable from the formatting-instructions text, yet is
absent from every Row Input (never substituted), and — under the
spec-modelled rendering — is passed through to the model unsubstituted. -/
theorem formatting_instructions_unsubstituted (sp up fi : String) (df : DataFrame)
    (tok a b : List Char)
    (hfi : fi.data = a ++ '{' :: (tok ++ '}' :: b))
    (hne : tok ≠ []) (hw : ∀ c ∈ tok, isWordChar c = true)
    (hnot : List.asString tok ∉ all_variables sp up) :
    (create_chain sp up fi).system = sp ++ "\n\n" ++ fi ∧
    List.asString tok ∈ findVars fi ∧
    (∀ inp ∈ prepare_inputs df sp up,
      List.lookup (List.asString tok) inp = none) ∧
    (∀ (input : RowInput) (fuel : Nat) (r : List Char),
      List.lookup (List.asString tok) input = none →
      renderAux input (fuel + 1) ('{' :: (tok ++ '}' :: r)) =
        '{' :: (tok ++ '}' :: renderAux input fuel r)) := by
  refine ⟨rfl, ?_, ?_, ?_⟩
  · exact (mem_findVarsAux fi.data.length fi.data le_rfl tok).mpr ⟨hne, hw, a, b, hfi⟩
  · intro inp hinp
    simp only [prepare_inputs, List.mem_map] at hinp
    obtain ⟨i, -, rfl⟩ := hinp
    exact lookup_map_self_none hnot
  · intro input fuel r hlook
    exact renderAux_passes_unknown input tok hne hw hlook fuel r

theorem formatting_instructions_unsubstituted_witness :
    (create_chain ("p") ("\x7bname\x7d") ("Return only \x7bformat\x7d")).system =
      ("p") ++ "\n\n" ++ ("Return only \x7bformat\x7d") := by
  exact (formatting_instructions_unsubstituted ("p") ("\x7bname\x7d")
    ("Return only \x7bformat\x7d") dfSample ("format".data) ("Return only ".data) []
    (by decide) (by decide) (by decide) (by decide)).1
